import Mathlib

/-!
Formal model of the core of `from_pupil/player_methods.py`:

* the migration engine `update_recording_to_recent` together with its
  individual migration steps (file-presence behavior and version-field
  writes are modelled; byte-level file contents are not),
* the timestamp-indexed containers `Bisector`, `Mutable_Bisector` and
  `Affiliator` (numpy `searchsorted` is modelled by the underlying binary
  search on the raw array),
* the frame-correlation routine `correlate_data`.

Python floats are modelled as rationals (`ℚ`); all timestamp values the
claims mention are exactly representable, so no rounding behavior is lost.
-/

/-- A recording's declared data-format version, as an ordered triple
`(major, minor, patch)`.  Modelled from the spec: `VersionFormat` /
`read_rec_version` live in `version_utils`, which is not part of `src/`;
the spec describes a `SemanticVersion` as an ordered triple with missing
components defaulting to `0`, ordered lexicographically. -/
abbrev Version : Type := ℕ × ℕ × ℕ

/-- Strict lexicographic order on versions (spec: "Ordering: lexicographic on
(major, minor, patch)"). Returns a `Bool` so that it can gate the migration
steps exactly like `rec_version < VersionFormat(...)` does in the source. -/
def vlt (a b : Version) : Bool :=
  decide (a.1 < b.1 ∨ (a.1 = b.1 ∧ (a.2.1 < b.2.1 ∨ (a.2.1 = b.2.1 ∧ a.2.2 < b.2.2))))

/-- Reflexive lexicographic order on versions, used for the
`rec_version <= VersionFormat("0.8.7")` and `rec_version >= VersionFormat(...)`
gates in the source. -/
def vle (a b : Version) : Bool := vlt a b || decide (a = b)

/-- Unfolding of `vlt` into arithmetic, for `omega`. -/
theorem vlt_iff (a b : Version) : vlt a b = true ↔
    (a.1 < b.1 ∨ (a.1 = b.1 ∧ (a.2.1 < b.2.1 ∨ (a.2.1 = b.2.1 ∧ a.2.2 < b.2.2)))) := by
  simp [vlt]

/-- Unfolding of `vle` into arithmetic, for `omega`. -/
theorem vle_iff (a b : Version) : vle a b = true ↔
    (a.1 < b.1 ∨ (a.1 = b.1 ∧ (a.2.1 < b.2.1 ∨ (a.2.1 = b.2.1 ∧ a.2.2 ≤ b.2.2)))) := by
  rcases a with ⟨a1, a2, a3⟩
  rcases b with ⟨b1, b2, b3⟩
  simp [vle, vlt, Prod.ext_iff]
  omega

/-- Transitivity: `a < b ≤ c → a < c`. -/
theorem vlt_of_vlt_of_vle {a b c : Version} (h1 : vlt a b = true) (h2 : vle b c = true) :
    vlt a c = true := by
  rw [vlt_iff] at h1 ⊢
  rw [vle_iff] at h2
  omega

/-- Transitivity: `a ≤ b < c → a < c`. -/
theorem vlt_of_vle_of_vlt {a b c : Version} (h1 : vle a b = true) (h2 : vlt b c = true) :
    vlt a c = true := by
  rw [vle_iff] at h1
  rw [vlt_iff] at h2 ⊢
  omega

/-- `a < b → a ≤ b`. -/
theorem vle_of_vlt {a b : Version} (h : vlt a b = true) : vle a b = true := by
  rw [vlt_iff] at h
  rw [vle_iff]
  omega

/-- The Python exception classes that the modelled code can raise. -/
inductive PyErr : Type
  /-- `ValueError`, raised by `Bisector` on length mismatch and lookup miss. -/
  | valueError : PyErr
  /-- `FileNotFoundError`, raised by `fm.load_object` / `np.load` / `open` on a
  missing file. -/
  | fileNotFound : PyErr
  /-- `AttributeError`: `logger.Error(...)` in the too-old branch of
  `update_recording_to_recent` — the `logging.Logger` class has no attribute
  `Error`, so evaluating `logger.Error` raises at runtime. -/
  | attributeError : PyErr
  /-- `AssertionError`, raised by `check_for_worldless_recording` when neither
  a world video nor usable eye timestamps exist. -/
  | assertionError : PyErr
  /-- `IndexError`, raised by numpy fancy indexing with out-of-range indices. -/
  | indexError : PyErr
deriving DecidableEq, Repr

/-- Decidable equality of `Except` results, for concrete evaluation. -/
instance {ε α : Type} [DecidableEq ε] [DecidableEq α] : DecidableEq (Except ε α) := fun x y =>
  match x, y with
  | .ok a, .ok b =>
    if h : a = b then isTrue (by rw [h]) else isFalse (fun he => h (Except.ok.inj he))
  | .error a, .error b =>
    if h : a = b then isTrue (by rw [h]) else isFalse (fun he => h (Except.error.inj he))
  | .ok _, .error _ => isFalse (fun he => Except.noConfusion he)
  | .error _, .ok _ => isFalse (fun he => Except.noConfusion he)

/-- The individual actions executed by `update_recording_to_recent`, in source
order.  `tooOldAbort` stands for the `else:` branch at lines 234-236 (the
too-old fatal branch); `checkWorldless` is `check_for_worldless_recording`. -/
inductive Step : Type
  | bytesToUnicode : Step
  | v073_to_v074 : Step
  | v05_to_v074 : Step
  | v04_to_v074 : Step
  | v03_to_v074 : Step
  | tooOldAbort : Step
  | v074_to_v082 : Step
  | v082_to_v083 : Step
  | v083_to_v086 : Step
  | v086_to_v087 : Step
  | v087_to_v091 : Step
  | v091_to_v093 : Step
  | v093_to_v094 : Step
  | v094_to_v0913 : Step
  | v0913_to_v0915 : Step
  | v0915_v13 : Step
  | v13_v14 : Step
  | checkWorldless : Step
  | v14_v18 : Step
  | v18_v19 : Step
deriving DecidableEq, Repr

/-- The on-disk environment of one recording directory, as far as the
migration steps inspect it: the declared `"Data Format Version"` from
`info.csv` and the presence of the files the steps load.  (The Pupil-Mobile
branch at lines 209-215 only fires for recordings with *no* declared version
and is therefore outside this model, which always has a declared version.) -/
structure Env : Type where
  /-- Parsed `"Data Format Version"` metadata value. -/
  declared : Version
  /-- The `pupil_data` file exists. -/
  pupilData : Bool
  /-- `gaze_positions.npy` exists. -/
  gazeNpy : Bool
  /-- `pupil_positions.npy` exists. -/
  pupilNpy : Bool
  /-- The `camera_calibration` file exists (only touched inside the
  `try/except IOError` block of `update_recording_v0913_to_v0915`). -/
  cameraCalib : Bool
  /-- Some `world.*` video with a valid extension exists. -/
  worldVideo : Bool
  /-- `eye*_timestamps.npy` files exist, are one-dimensional, have more than
  one entry and yield `min_ts < max_ts`. -/
  eyeTsValid : Bool
deriving DecidableEq, Repr

/-- The mutable on-disk state a run threads through its steps: the value of
the `"Data Format Version"` key (written by `_update_info_version_to`) and
whether `pupil_data` currently exists (some pre-v0.7.4 steps create it). -/
structure RecSt : Type where
  /-- Current `"Data Format Version"` value in `info.csv`. -/
  versionField : Version
  /-- The `pupil_data` file currently exists. -/
  pupilData : Bool
deriving DecidableEq, Repr

/-- One migration step's effect, translated from its Python body.  Each step
that begins with an unguarded `fm.load_object(... "pupil_data")` (or
`np.load` of a required `.npy` file) raises `FileNotFoundError` when the file
is absent; nothing in `update_recording_to_recent` catches it.  Steps whose
file accesses are guarded by `os.path.exists` / `glob` / `try-except` never
raise for a missing file; in particular `update_recording_v0913_to_v0915`
wraps its `camera_calibration` upgrade in `try: ... except IOError: pass`, so
`env.cameraCalib` is never even consulted. -/
def applyStep (env : Env) : Step → RecSt → Except PyErr RecSt
  | .bytesToUnicode, s =>
    -- lines 703-736: per-file loop guarded by try/except; never raises for a
    -- missing file and does not touch the version field
    .ok s
  | .v073_to_v074, s =>
    -- lines 739-763: unguarded `fm.load_object(... "pupil_data")`
    if s.pupilData then .ok s else .error .fileNotFound
  | .v05_to_v074, s =>
    -- lines 766-775: unguarded load of `pupil_data`
    if s.pupilData then .ok s else .error .fileNotFound
  | .v04_to_v074, s =>
    -- lines 778-816: unguarded `np.load` of both `.npy` files, then creates
    -- `pupil_data`
    if env.gazeNpy && env.pupilNpy then .ok { s with pupilData := true }
    else .error .fileNotFound
  | .v03_to_v074, s =>
    -- lines 819-856: unguarded `np.load` of `gaze_positions.npy`, then
    -- creates `pupil_data`
    if env.gazeNpy then .ok { s with pupilData := true } else .error .fileNotFound
  | .tooOldAbort, _ =>
    -- lines 234-236: `logger.Error(...)` — `Logger` has no attribute `Error`,
    -- so this raises `AttributeError` before the `return` is reached
    .error .attributeError
  | .v074_to_v082, s =>
    -- lines 369-370: only `_update_info_version_to("v0.8.2", ...)`
    .ok { s with versionField := (0, 8, 2) }
  | .v082_to_v083, s =>
    -- lines 373-383: unguarded load of `pupil_data`, then version bump
    if s.pupilData then .ok { s with versionField := (0, 8, 3) } else .error .fileNotFound
  | .v083_to_v086, s =>
    -- lines 386-396
    if s.pupilData then .ok { s with versionField := (0, 8, 6) } else .error .fileNotFound
  | .v086_to_v087, s =>
    -- lines 399-418
    if s.pupilData then .ok { s with versionField := (0, 8, 7) } else .error .fileNotFound
  | .v087_to_v091, s =>
    -- lines 421-423: version bump only
    .ok { s with versionField := (0, 9, 1) }
  | .v091_to_v093, s =>
    -- lines 426-435
    if s.pupilData then .ok { s with versionField := (0, 9, 3) } else .error .fileNotFound
  | .v093_to_v094, s =>
    -- lines 438-457: per-file loop with bare try/except; never raises
    .ok { s with versionField := (0, 9, 4) }
  | .v094_to_v0913, s =>
    -- lines 460-536: audio work guarded by `os.path.exists`; transcoding
    -- itself is out of scope (opaque media layer)
    .ok { s with versionField := (0, 9, 13) }
  | .v0913_to_v0915, s =>
    -- lines 539-564: unguarded load of `pupil_data` (line 544); the
    -- `camera_calibration` upgrade is inside `try/except IOError: pass`
    if s.pupilData then .ok { s with versionField := (0, 9, 15) } else .error .fileNotFound
  | .v0915_v13, s =>
    -- lines 567-602: glob loop with existence checks
    .ok { s with versionField := (1, 3, 0) }
  | .v13_v14, s =>
    -- lines 605-607: version bump only
    .ok { s with versionField := (1, 4, 0) }
  | .checkWorldless, s =>
    -- lines 667-700: if a world video exists, nothing happens; otherwise an
    -- artificial timeline is built from eye timestamps, and the `assert` at
    -- line 690 fails when those are unusable
    if env.worldVideo then .ok s
    else if env.eyeTsValid then .ok s
    else .error .assertionError
  | .v14_v18, s =>
    -- lines 610-634: legacy loader (opaque storage layer), version bump
    .ok { s with versionField := (1, 8, 0) }
  | .v18_v19, s =>
    -- lines 637-664: existence-guarded copies, version bump
    .ok { s with versionField := (1, 9, 0) }

/-- The version-threshold table of the incremental block, lines 239-260:
`if rec_version < VersionFormat(t): step(rec_dir)` for each entry, in source
order.  `rec_version` is read once at line 218 and never re-read, so the
gates depend only on the starting version. -/
def gatedSteps : List (Version × Step) :=
  [((0, 8, 2), Step.v074_to_v082),
   ((0, 8, 3), Step.v082_to_v083),
   ((0, 8, 6), Step.v083_to_v086),
   ((0, 8, 7), Step.v086_to_v087),
   ((0, 9, 1), Step.v087_to_v091),
   ((0, 9, 3), Step.v091_to_v093),
   ((0, 9, 4), Step.v093_to_v094),
   ((0, 9, 13), Step.v094_to_v0913),
   ((0, 9, 15), Step.v0913_to_v0915),
   ((1, 3, 0), Step.v0915_v13),
   ((1, 4, 0), Step.v13_v14)]

/-- The two version-gated steps at lines 265-268, which the source places
*after* the `check_for_worldless_recording` call at line 263. -/
def tailGatedSteps : List (Version × Step) :=
  [((1, 8, 0), Step.v14_v18),
   ((1, 9, 0), Step.v18_v19)]

/-- Lines 221-222: `if rec_version <= VersionFormat("0.8.7"):
update_recording_bytes_to_unicode(rec_dir)`. -/
def byteSeg (rv : Version) : List Step :=
  if vle rv (0, 8, 7) then [Step.bytesToUnicode] else []

/-- Lines 224-236: the pre-v0.7.4 normalization ladder — an if/elif chain
selecting at most one conversion by version *range*, with the too-old fatal
branch as its final `else`. -/
def elifSeg (rv : Version) : List Step :=
  if vle (0, 7, 4) rv then []
  else if vle (0, 7, 3) rv then [Step.v073_to_v074]
  else if vle (0, 5, 0) rv then [Step.v05_to_v074]
  else if vle (0, 4, 0) rv then [Step.v04_to_v074]
  else if vle (0, 3, 0) rv then [Step.v03_to_v074]
  else [Step.tooOldAbort]

/-- Everything `update_recording_to_recent` runs before
`check_for_worldless_recording`: the python2→3 conversion (lines 221-222),
the pre-v0.7.4 normalization ladder (lines 224-236), and the gated
incremental block of lines 239-260. -/
def chainPre (rv : Version) : List Step :=
  byteSeg rv ++ elifSeg rv ++ (gatedSteps.filter (fun p => vlt rv p.1)).map Prod.snd

/-- The two gated steps the source runs after the worldless check
(lines 265-268). -/
def chainPost (rv : Version) : List Step :=
  (tailGatedSteps.filter (fun p => vlt rv p.1)).map Prod.snd

/-- The full sequence of actions `update_recording_to_recent` attempts for a
recording declaring version `rv`, in source order (lines 221-268):
`check_for_worldless_recording` sits between the `< 1.4` and `< 1.8` gates,
with the source comment "Do this independent of rec_version". -/
def migrationChain (rv : Version) : List Step :=
  chainPre rv ++ Step.checkWorldless :: chainPost rv

/-- Executes a list of actions in order, stopping at the first raised
exception (which propagates out of `update_recording_to_recent`: the body of
lines 221-268 contains no try/except).  Returns the final on-disk state, the
list of actions that ran to completion, and the propagated exception, if
any. -/
def runSteps (env : Env) : List Step → RecSt → RecSt × List Step × Option PyErr
  | [], s => (s, [], none)
  | st :: rest, s =>
    match applyStep env st s with
    | .error e => (s, [], some e)
    | .ok s' =>
      let r := runSteps env rest s'
      (r.1, st :: r.2.1, r.2.2)

/-- `update_recording_to_recent(rec_dir)`, lines 204-268: reads the declared
version once and attempts the action sequence `migrationChain`. -/
def update_recording_to_recent (env : Env) : RecSt × List Step × Option PyErr :=
  runSteps env (migrationChain env.declared) ⟨env.declared, env.pupilData⟩

/-- An action is version-gated iff its execution is conditioned on the
recording's declared version: every migration step except the unconditional
`check_for_worldless_recording` call.  (`tooOldAbort` is the fatal branch,
not a migration step.) -/
def isVersionGated : Step → Bool
  | .checkWorldless => false
  | .tooOldAbort => false
  | _ => true

/-- Membership in the incremental threshold table (the 13 steps of
lines 239-268, excluding the worldless check). -/
def isTableGated (st : Step) : Bool :=
  decide (st ∈ (gatedSteps ++ tailGatedSteps).map Prod.snd)

/-- All files the steps can demand unconditionally are present, and a world
video exists, so no step raises. -/
def goodFiles (env : Env) : Prop :=
  env.pupilData = true ∧ env.gazeNpy = true ∧ env.pupilNpy = true ∧ env.worldVideo = true

/-- On a good environment, every action except `tooOldAbort` succeeds and
keeps `pupil_data` present. -/
theorem applyStep_ok {env : Env} (hg : goodFiles env) {s : RecSt}
    (hs : s.pupilData = true) {st : Step} (hst : st ≠ Step.tooOldAbort) :
    ∃ s', applyStep env st s = .ok s' ∧ s'.pupilData = true := by
  obtain ⟨h1, h2, h3, h4⟩ := hg
  cases st <;> simp [applyStep, hs, h1, h2, h3, h4] at hst ⊢

/-- On a good environment, a sequence free of the fatal branch runs to
completion: every action executes, in order, and no exception propagates. -/
theorem runSteps_all_ok {env : Env} (hg : goodFiles env) :
    ∀ (steps : List Step) (s : RecSt), s.pupilData = true →
      Step.tooOldAbort ∉ steps →
      (runSteps env steps s).2.1 = steps ∧ (runSteps env steps s).2.2 = none := by
  intro steps
  induction steps with
  | nil => intro s _ _; simp [runSteps]
  | cons st rest ih =>
    intro s hs hmem
    obtain ⟨s', hok, hs'⟩ := applyStep_ok hg hs (fun h => hmem (h ▸ List.mem_cons_self _ _))
    have hrest : Step.tooOldAbort ∉ rest := fun h => hmem (List.mem_cons_of_mem _ h)
    obtain ⟨ih1, ih2⟩ := ih s' hs' hrest
    simp [runSteps, hok, ih1, ih2]

/-- `Prod.snd` of a filtered pair list stays inside `Prod.snd` of the whole
list. -/
theorem mem_map_snd_of_mem_map_snd_filter {st : Step} {q : Version × Step → Bool}
    {l : List (Version × Step)} (h : st ∈ (l.filter q).map Prod.snd) :
    st ∈ l.map Prod.snd :=
  List.map_subset Prod.snd (List.filter_sublist _).subset h

/-- The fatal branch is not part of the attempted sequence of a recording
whose version is at least `0.3`. -/
theorem tooOld_not_mem_chain {rv : Version} (h : vle (0, 3, 0) rv = true) :
    Step.tooOldAbort ∉ migrationChain rv := by
  intro hmem
  rw [migrationChain, chainPre] at hmem
  rcases List.mem_append.1 hmem with hmem | hmem
  · rcases List.mem_append.1 hmem with hmem | hmem
    · rcases List.mem_append.1 hmem with hmem | hmem
      · rw [byteSeg] at hmem
        split at hmem <;> simp_all
      · rw [elifSeg] at hmem
        split_ifs at hmem <;> simp_all
    · have hm := mem_map_snd_of_mem_map_snd_filter hmem
      simp [gatedSteps] at hm
  · rcases List.mem_cons.1 hmem with hmem | hmem
    · exact Step.noConfusion hmem
    · have hm := mem_map_snd_of_mem_map_snd_filter hmem
      simp [tailGatedSteps] at hm

/-- The worldless check never occurs in the pre-check part of the chain. -/
theorem check_not_mem_chainPre (rv : Version) :
    Step.checkWorldless ∉ chainPre rv := by
  intro hmem
  rw [chainPre] at hmem
  rcases List.mem_append.1 hmem with hmem | hmem
  · rcases List.mem_append.1 hmem with hmem | hmem
    · rw [byteSeg] at hmem
      split at hmem <;> simp_all
    · rw [elifSeg] at hmem
      split_ifs at hmem <;> simp_all
  · have hm := mem_map_snd_of_mem_map_snd_filter hmem
    simp [gatedSteps] at hm

/-- The worldless check never occurs in the post-check part of the chain. -/
theorem check_not_mem_chainPost (rv : Version) :
    Step.checkWorldless ∉ chainPost rv := by
  intro hmem
  have hm := mem_map_snd_of_mem_map_snd_filter hmem
  simp [tailGatedSteps] at hm

/-- On a good environment a supported recording's run executes exactly the
attempted chain and raises nothing. -/
theorem run_trace_eq {env : Env} (hg : goodFiles env)
    (h03 : vle (0, 3, 0) env.declared = true) :
    (update_recording_to_recent env).2.1 = migrationChain env.declared ∧
      (update_recording_to_recent env).2.2 = none :=
  runSteps_all_ok hg (migrationChain env.declared) ⟨env.declared, env.pupilData⟩
    hg.1 (tooOld_not_mem_chain h03)

/-- A recording declaring v1.0 with every file present: used to exhibit the
position of the worldless check. -/
def env10 : Env := ⟨(1, 0, 0), true, true, true, true, true, true⟩

/-- C1, counterexample.  For a recording declaring version 1.0 (with all
files present) the executed trace is
`[v0915_v13, v13_v14, checkWorldless, v14_v18, v18_v19]`: the version-gated
steps `update_recording_v14_v18` and `update_recording_v18_v19` execute
*after* `check_for_worldless_recording`, so the claim that the worldless
check runs only after every version-gated step of the run is false. -/
theorem claim_C1_counterexample :
    ¬ (∀ i j : Fin ((update_recording_to_recent env10).2.1).length,
        ((update_recording_to_recent env10).2.1).get i = Step.checkWorldless →
        isVersionGated (((update_recording_to_recent env10).2.1).get j) = true →
        (j : ℕ) < (i : ℕ)) := by
  decide

/-- C1, amended.  In every run on a supported recording (declared version at
least `0.3` — below that the run aborts before reaching the check) with its
expected files present, `check_for_worldless_recording` executes exactly
once, at a version-independent position: after the python2→3 conversion, the
pre-v0.7.4 ladder and every gated step with threshold up to v1.4, but
*before* the v1.8- and v1.9-gated steps, which are the only actions that can
follow it. -/
theorem claim_C1_amended (env : Env) (hg : goodFiles env)
    (h03 : vle (0, 3, 0) env.declared = true) :
    (update_recording_to_recent env).2.1 =
      chainPre env.declared ++ Step.checkWorldless :: chainPost env.declared ∧
    ((update_recording_to_recent env).2.1).count Step.checkWorldless = 1 ∧
    (∀ st ∈ chainPost env.declared,
      isVersionGated st = true ∧ (st = Step.v14_v18 ∨ st = Step.v18_v19)) := by
  obtain ⟨htr, -⟩ := run_trace_eq hg h03
  rw [migrationChain] at htr
  refine ⟨htr, ?_, ?_⟩
  · rw [htr]
    rw [List.count_append, List.count_cons]
    rw [List.count_eq_zero.2 (check_not_mem_chainPre env.declared),
      List.count_eq_zero.2 (check_not_mem_chainPost env.declared)]
    simp
  · intro st hst
    have hmem : st ∈ tailGatedSteps.map Prod.snd :=
      mem_map_snd_of_mem_map_snd_filter hst
    simp [tailGatedSteps] at hmem
    rcases hmem with rfl | rfl
    · exact ⟨rfl, Or.inl rfl⟩
    · exact ⟨rfl, Or.inr rfl⟩

/-- C1, witness for the amended theorem at the concrete v1.0 environment. -/
theorem claim_C1_witness :
    goodFiles env10 ∧ vle (0, 3, 0) (1, 0, 0) = true ∧
    ((update_recording_to_recent env10).2.1 =
        chainPre (1, 0, 0) ++ Step.checkWorldless :: chainPost (1, 0, 0) ∧
      ((update_recording_to_recent env10).2.1).count Step.checkWorldless = 1 ∧
      (∀ st ∈ chainPost (1, 0, 0),
        isVersionGated st = true ∧ (st = Step.v14_v18 ∨ st = Step.v18_v19))) :=
  ⟨⟨rfl, rfl, rfl, rfl⟩, by decide, claim_C1_amended env10 ⟨rfl, rfl, rfl, rfl⟩ (by decide)⟩

/-- A recording declaring v0.3 with every file present. -/
def env03 : Env := ⟨(0, 3, 0), true, true, true, true, true, true⟩

/-- A recording declaring v0.5 with every file present. -/
def env05 : Env := ⟨(0, 5, 0), true, true, true, true, true, true⟩

/-- C2, counterexample.  For starting versions `v1 = 0.3 < v2 = 0.5` the
executed step sequence of `v1` is *not* a superset (in relative order) of
that of `v2`: the `v2` run executes `update_recording_v05_to_v074`, which the
`v1` run never executes because the pre-v0.7.4 if/elif ladder selects
`update_recording_v03_to_v074` instead.  Formally, the `v2` trace is not a
sublist of the `v1` trace. -/
theorem claim_C2_counterexample :
    ¬ ((update_recording_to_recent env05).2.1.Sublist
        (update_recording_to_recent env03).2.1) := by
  intro h
  have h1 : Step.v05_to_v074 ∈ (update_recording_to_recent env05).2.1 := by decide
  have h2 : Step.v05_to_v074 ∉ (update_recording_to_recent env03).2.1 := by decide
  exact h2 (h.subset h1)

/-- Every element of the incremental table's step column is table-gated. -/
theorem isTableGated_of_mem {st : Step}
    (h : st ∈ (gatedSteps ++ tailGatedSteps).map Prod.snd) :
    isTableGated st = true := by
  rw [isTableGated, decide_eq_true_eq]
  exact h

/-- The filtered attempted chain retains exactly the incremental table steps
whose threshold exceeds the starting version. -/
theorem filter_tableGated_chain (rv : Version) :
    (migrationChain rv).filter isTableGated =
      ((gatedSteps ++ tailGatedSteps).filter (fun p => vlt rv p.1)).map Prod.snd := by
  rw [migrationChain, chainPre]
  rw [List.filter_append, List.filter_append, List.filter_append, List.filter_cons]
  have hbyte : (byteSeg rv).filter isTableGated = [] := by
    rw [byteSeg]
    split <;> rfl
  have helif : (elifSeg rv).filter isTableGated = [] := by
    rw [elifSeg]
    split_ifs <;> rfl
  have hgated : ((gatedSteps.filter (fun p => vlt rv p.1)).map Prod.snd).filter
      isTableGated = (gatedSteps.filter (fun p => vlt rv p.1)).map Prod.snd :=
    List.filter_eq_self.2 fun st hst =>
      isTableGated_of_mem (by
        rw [List.map_append]
        exact List.mem_append_left _ (mem_map_snd_of_mem_map_snd_filter hst))
  have hpost : (chainPost rv).filter isTableGated = chainPost rv :=
    List.filter_eq_self.2 fun st hst =>
      isTableGated_of_mem (by
        rw [List.map_append]
        exact List.mem_append_right _ (mem_map_snd_of_mem_map_snd_filter hst))
  rw [hbyte, helif, hgated]
  simp only [show isTableGated Step.checkWorldless = false from rfl, Bool.false_eq_true,
    if_false, List.nil_append]
  rw [hpost, chainPost, List.filter_append, List.map_append]

/-- C2, amended.  Restricted to the version-*threshold*-gated incremental
steps (the 13 `if rec_version < VersionFormat(t)` entries from `0.8.2` up to
`1.9`), the claim holds: on a supported recording with its files present,
the run executes exactly the table steps whose threshold exceeds the
declared version, the table is in strictly increasing threshold order, and
for `v1 ≤ v2` the sequence selected for `v2` is a sublist (order-preserving
subsequence) of the one selected for `v1`.  The full-run superset property
fails only because of the mutually exclusive pre-v0.7.4 ladder (see the
counterexample). -/
theorem claim_C2_amended (env : Env) (v2 : Version) (hg : goodFiles env)
    (h03 : vle (0, 3, 0) env.declared = true) (h12 : vle env.declared v2 = true) :
    ((update_recording_to_recent env).2.1.filter isTableGated =
      ((gatedSteps ++ tailGatedSteps).filter (fun p => vlt env.declared p.1)).map
        Prod.snd) ∧
    List.Pairwise (fun p q => vlt p.1 q.1 = true) (gatedSteps ++ tailGatedSteps) ∧
    (((gatedSteps ++ tailGatedSteps).filter (fun p => vlt v2 p.1)).map
        Prod.snd).Sublist
      (((gatedSteps ++ tailGatedSteps).filter (fun p => vlt env.declared p.1)).map
        Prod.snd) := by
  obtain ⟨htr, -⟩ := run_trace_eq hg h03
  refine ⟨?_, by decide, ?_⟩
  · rw [htr, filter_tableGated_chain]
  · exact List.Sublist.map Prod.snd
      (List.monotone_filter_right _ fun p hp => vlt_of_vle_of_vlt h12 hp)

/-- A recording declaring v0.9.0 with every file present. -/
def env09 : Env := ⟨(0, 9, 0), true, true, true, true, true, true⟩

/-- C2, witness for the amended theorem at `v1 = 0.9.0`, `v2 = 1.0.0`. -/
theorem claim_C2_witness :
    goodFiles env09 ∧ vle (0, 3, 0) (0, 9, 0) = true ∧ vle (0, 9, 0) (1, 0, 0) = true ∧
    (((update_recording_to_recent env09).2.1.filter isTableGated =
        ((gatedSteps ++ tailGatedSteps).filter (fun p => vlt (0, 9, 0) p.1)).map
          Prod.snd) ∧
      List.Pairwise (fun p q => vlt p.1 q.1 = true) (gatedSteps ++ tailGatedSteps) ∧
      (((gatedSteps ++ tailGatedSteps).filter (fun p => vlt (1, 0, 0) p.1)).map
          Prod.snd).Sublist
        (((gatedSteps ++ tailGatedSteps).filter (fun p => vlt (0, 9, 0) p.1)).map
          Prod.snd)) :=
  ⟨⟨rfl, rfl, rfl, rfl⟩, by decide, by decide,
    claim_C2_amended env09 (1, 0, 0) ⟨rfl, rfl, rfl, rfl⟩ (by decide) (by decide)⟩

/-- For a version below `0.3`, none of the `>=` gates of the pre-v0.7.4
ladder holds. -/
theorem vge_low_false {v c : Version} (h : vlt v (0, 3, 0) = true)
    (hc : vle (0, 3, 0) c = true) : vle c v = false := by
  cases hcv : vle c v with
  | false => rfl
  | true =>
    have h1 : vlt c (0, 3, 0) = true := vlt_of_vle_of_vlt hcv h
    have h2 : vlt (0, 3, 0) (0, 3, 0) = true := vlt_of_vle_of_vlt hc h1
    exact absurd h2 (by decide)

/-- C3.  For every recording whose declared version predates `0.3` (the
oldest supported), the run aborts with a raised exception before any
further step executes, and the `"Data Format Version"` field is left
unchanged.  Concretely the raised exception is Python's `AttributeError`
(the fatal branch executes `logger.Error(...)`, and `logging.Logger` has no
attribute `Error`), which realizes the spec's `FatalVersionError`: it
propagates to the caller of `update_recording_to_recent`.  The only action
that completes beforehand is the python2→3 byte conversion of lines 221-222,
which precedes the version gate in the source and never touches the version
field. -/
theorem claim_C3 (env : Env) (h : vlt env.declared (0, 3, 0) = true) :
    update_recording_to_recent env =
      (⟨env.declared, env.pupilData⟩, [Step.bytesToUnicode], some PyErr.attributeError) := by
  have hb : vle env.declared (0, 8, 7) = true :=
    vle_of_vlt (vlt_of_vlt_of_vle h (by decide))
  have h74 : vle (0, 7, 4) env.declared = false := vge_low_false h (by decide)
  have h73 : vle (0, 7, 3) env.declared = false := vge_low_false h (by decide)
  have h05 : vle (0, 5, 0) env.declared = false := vge_low_false h (by decide)
  have h04 : vle (0, 4, 0) env.declared = false := vge_low_false h (by decide)
  have h03 : vle (0, 3, 0) env.declared = false := vge_low_false h (by decide)
  rw [update_recording_to_recent, migrationChain, chainPre, byteSeg, elifSeg]
  rw [if_pos hb, if_neg (by simp [h74]), if_neg (by simp [h73]), if_neg (by simp [h05]),
    if_neg (by simp [h04]), if_neg (by simp [h03])]
  simp [runSteps, applyStep]

/-- A recording declaring v0.2 with every file present. -/
def env02 : Env := ⟨(0, 2, 0), true, true, true, true, true, true⟩

/-- C3, witness at a recording declaring version `0.2`. -/
theorem claim_C3_witness :
    vlt (0, 2, 0) (0, 3, 0) = true ∧
    update_recording_to_recent env02 =
      (⟨(0, 2, 0), true⟩, [Step.bytesToUnicode], some PyErr.attributeError) :=
  ⟨by decide, claim_C3 env02 (by decide)⟩

/-- A recording declaring v0.7.4 whose `pupil_data` file is missing (all
other files present). -/
def env74 : Env := ⟨(0, 7, 4), false, true, true, true, true, true⟩

/-- C4, counterexample.  For a v0.7.4 recording with `pupil_data` absent,
`update_recording_v082_to_v083` raises `FileNotFoundError` from its
unguarded `fm.load_object` call; nothing catches it at the step boundary —
the exception propagates out of `update_recording_to_recent` and no later
step (not `v083_to_v086`, not even the unconditional worldless check) ever
executes, refuting the claim that a missing expected file is caught, logged
and skipped with the run continuing. -/
theorem claim_C4_counterexample :
    (update_recording_to_recent env74).2.2 = some PyErr.fileNotFound ∧
    (update_recording_to_recent env74).2.1 = [Step.bytesToUnicode, Step.v074_to_v082] ∧
    Step.v083_to_v086 ∉ (update_recording_to_recent env74).2.1 ∧
    Step.checkWorldless ∉ (update_recording_to_recent env74).2.1 := by
  decide

/-- The migration steps never read the `camera_calibration` flag: its only
use in the source sits inside `try: ... except IOError: pass`. -/
theorem applyStep_cameraCalib (env : Env) (b : Bool) (st : Step) (s : RecSt) :
    applyStep { env with cameraCalib := b } st s = applyStep env st s := by
  cases st <;> rfl

/-- Runs are insensitive to the presence of `camera_calibration`. -/
theorem runSteps_cameraCalib (env : Env) (b : Bool) :
    ∀ (steps : List Step) (s : RecSt),
      runSteps { env with cameraCalib := b } steps s = runSteps env steps s := by
  intro steps
  induction steps with
  | nil => intro s; rfl
  | cons st rest ih =>
    intro s
    rw [runSteps, runSteps, applyStep_cameraCalib]
    cases applyStep env st s with
    | error e => rfl
    | ok s' => simp only [ih]

/-- C4, amended.  Missing-file tolerance in the migration run is internal to
individual steps and partial, not a step-boundary policy: a file access that
a step wraps in its own guard (existence check or `try/except`) is
recoverable — e.g. the `camera_calibration` upgrade of
`update_recording_v0913_to_v0915` is inside `try/except IOError: pass`, so
its absence never changes the run's outcome, and a v0.9.4 run with it
missing completes every remaining step — but an unguarded load (such as
`pupil_data` in `update_recording_v082_to_v083`) propagates
`FileNotFoundError` to the caller and aborts the rest of the run (see the
counterexample). -/
theorem claim_C4_amended :
    (∀ (env : Env) (b : Bool),
        update_recording_to_recent { env with cameraCalib := b } =
          update_recording_to_recent env) ∧
    (update_recording_to_recent ⟨(0, 9, 4), true, true, true, false, true, true⟩).2.2 =
      none ∧
    Step.v0913_to_v0915 ∈
      (update_recording_to_recent ⟨(0, 9, 4), true, true, true, false, true, true⟩).2.1 := by
  refine ⟨?_, by decide, by decide⟩
  intro env b
  rw [update_recording_to_recent, update_recording_to_recent]
  exact runSteps_cameraCalib env b _ _

/-- The binary-search loop of `numpy.searchsorted(..., side='left')` (and of
Python's `bisect_left`): narrow `[lo, hi)` to the leftmost insertion point
for `v`.  The loop is well defined on any array; its result is only
meaningful when the array is sorted, exactly as for numpy. -/
def bLoop (arr : List ℚ) (v : ℚ) : ℕ → ℕ → ℕ → ℕ
  | 0, lo, _ => lo
  | fuel + 1, lo, hi =>
    if lo < hi then
      if arr.getD ((lo + hi) / 2) 0 < v then bLoop arr v fuel ((lo + hi) / 2 + 1) hi
      else bLoop arr v fuel lo ((lo + hi) / 2)
    else lo

/-- `np.searchsorted(arr, v)` with the default `side='left'`.  The loop
narrows `hi - lo` every iteration, so `arr.length` rounds of `bLoop` always
suffice; the fuel makes the recursion structural. -/
def bisectLeft (arr : List ℚ) (v : ℚ) : ℕ := bLoop arr v arr.length 0 arr.length

/-- In a list sorted by a rational key, an entry's key is `< q` exactly when
the entry sits inside the `takeWhile (key · < q)` prefix. -/
theorem sorted_key_get_lt_iff {β : Type} (key : β → ℚ) :
    ∀ (l : List β), List.Sorted (fun x y => key x ≤ key y) l →
      ∀ (q : ℚ) (i : ℕ) (hi : i < l.length),
        (key (l.get ⟨i, hi⟩) < q ↔
          i < (l.takeWhile (fun x => decide (key x < q))).length) := by
  intro l
  induction l with
  | nil => intro _ _ i hi; exact absurd hi (by simp)
  | cons x t ih =>
    intro hs q i hi
    obtain ⟨hrel, ht⟩ := List.sorted_cons.1 hs
    by_cases hx : key x < q
    · rw [List.takeWhile_cons_of_pos (by simpa using hx)]
      cases i with
      | zero => simpa using hx
      | succ j =>
        have hj : j < t.length := by simpa using hi
        simpa [List.length_cons] using ih ht q j hj
    · rw [List.takeWhile_cons_of_neg (by simpa using hx)]
      simp only [List.length_nil, Nat.not_lt_zero, iff_false]
      cases i with
      | zero => simpa using hx
      | succ j =>
        have hj : j < t.length := by simpa using hi
        have hmem : t.get ⟨j, hj⟩ ∈ t := List.get_mem t j hj
        have := hrel _ hmem
        intro hlt
        exact hx (lt_of_le_of_lt this hlt)

/-- The bisection loop lands on `c` whenever `c ∈ [lo, hi]` and positions
below `c` carry values `< v` while positions from `c` on do not. -/
theorem bLoop_eq_of_bounds (arr : List ℚ) (v : ℚ) (c : ℕ)
    (hchar : ∀ (i : ℕ) (hi : i < arr.length), (arr.get ⟨i, hi⟩ < v ↔ i < c)) :
    ∀ (fuel lo hi : ℕ), hi - lo ≤ fuel → lo ≤ c → c ≤ hi → hi ≤ arr.length →
      bLoop arr v fuel lo hi = c := by
  intro fuel
  induction fuel with
  | zero =>
    intro lo hi hf hlo hhi _
    rw [bLoop]
    omega
  | succ n ih =>
    intro lo hi hf hlo hhi hlen
    rw [bLoop]
    by_cases hlh : lo < hi
    · rw [if_pos hlh]
      have hmid : (lo + hi) / 2 < arr.length := by omega
      have hmidval := hchar ((lo + hi) / 2) hmid
      rw [List.getD_eq_getElem arr 0 hmid]
      by_cases hc : arr[(lo + hi) / 2] < v
      · rw [if_pos hc]
        have : (lo + hi) / 2 < c := (hmidval.1 (by simpa using hc))
        exact ih ((lo + hi) / 2 + 1) hi (by omega) (by omega) hhi hlen
      · rw [if_neg hc]
        have : ¬ (lo + hi) / 2 < c := fun h =>
          hc (by simpa using hmidval.2 h)
        exact ih lo ((lo + hi) / 2) (by omega) hlo (by omega) (by omega)
    · rw [if_neg hlh]
      omega

/-- `searchsorted` on a sorted array returns the length of the `< v` prefix
(the leftmost insertion point). -/
theorem bisectLeft_sorted (arr : List ℚ) (hs : arr.Sorted (· ≤ ·)) (v : ℚ) :
    bisectLeft arr v = (arr.takeWhile (fun x => decide (x < v))).length := by
  have hchar := sorted_key_get_lt_iff (fun x : ℚ => x) arr hs v
  have hlen : (arr.takeWhile (fun x => decide (x < v))).length ≤ arr.length :=
    (List.takeWhile_sublist _).length_le
  rw [bisectLeft]
  exact bLoop_eq_of_bounds arr v _ hchar arr.length 0 arr.length
    (by omega) (by omega) hlen le_rfl

/-- Taking exactly the `takeWhile` prefix's length recovers `takeWhile`. -/
theorem take_takeWhile_length {β : Type} (p : β → Bool) :
    ∀ l : List β, l.take (l.takeWhile p).length = l.takeWhile p := by
  intro l
  induction l with
  | nil => rfl
  | cons x t ih =>
    by_cases hx : p x
    · rw [List.takeWhile_cons_of_pos hx]
      simpa [List.take_succ_cons] using ih
    · rw [List.takeWhile_cons_of_neg hx]
      rfl

/-- Dropping the `takeWhile` prefix's length recovers `dropWhile`. -/
theorem drop_takeWhile_length {β : Type} (p : β → Bool) (l : List β) :
    l.drop (l.takeWhile p).length = l.dropWhile p := by
  have h := List.takeWhile_append_dropWhile (p := p) (l := l)
  calc l.drop (l.takeWhile p).length
      = (l.takeWhile p ++ l.dropWhile p).drop (l.takeWhile p).length := by rw [h]
    _ = l.dropWhile p := List.drop_left _ _

/-- If every element of the first part passes, `takeWhile` crosses the
append boundary. -/
theorem takeWhile_append_all {β : Type} (p : β → Bool) :
    ∀ (l1 l2 : List β), (∀ x ∈ l1, p x = true) →
      (l1 ++ l2).takeWhile p = l1 ++ l2.takeWhile p := by
  intro l1
  induction l1 with
  | nil => intro l2 _; rfl
  | cons x t ih =>
    intro l2 hall
    have hx : p x = true := hall x (List.mem_cons_self x t)
    rw [List.cons_append, List.takeWhile_cons_of_pos hx,
      ih l2 (fun y hy => hall y (List.mem_cons_of_mem x hy)), List.cons_append]

/-- If some element of the first part fails, `takeWhile` never reaches the
second part. -/
theorem takeWhile_append_stop {β : Type} (p : β → Bool) :
    ∀ (l1 l2 : List β), (∃ x ∈ l1, p x = false) →
      (l1 ++ l2).takeWhile p = l1.takeWhile p := by
  intro l1
  induction l1 with
  | nil => intro l2 h; exact absurd h (by simp)
  | cons x t ih =>
    intro l2 hex
    by_cases hx : p x
    · rw [List.cons_append, List.takeWhile_cons_of_pos hx,
        List.takeWhile_cons_of_pos hx]
      obtain ⟨y, hy, hpy⟩ := hex
      rcases List.mem_cons.1 hy with rfl | hy'
      · rw [hx] at hpy; exact absurd hpy (by simp)
      · rw [ih l2 ⟨y, hy', hpy⟩]
    · rw [List.cons_append, List.takeWhile_cons_of_neg hx,
        List.takeWhile_cons_of_neg hx]

/-- On a list sorted by key, the `key < q` entries form a prefix, so
`takeWhile` and `filter` agree. -/
theorem sorted_key_takeWhile_eq_filter {β : Type} (key : β → ℚ) :
    ∀ (l : List β), List.Sorted (fun x y => key x ≤ key y) l → ∀ (q : ℚ),
      l.takeWhile (fun x => decide (key x < q)) =
        l.filter (fun x => decide (key x < q)) := by
  intro l
  induction l with
  | nil => intro _ _; rfl
  | cons x t ih =>
    intro hs q
    obtain ⟨hrel, ht⟩ := List.sorted_cons.1 hs
    by_cases hx : key x < q
    · rw [List.takeWhile_cons_of_pos (by simpa using hx),
        List.filter_cons_of_pos (by simpa using hx), ih ht q]
    · rw [List.takeWhile_cons_of_neg (by simpa using hx),
        List.filter_cons_of_neg (by simpa using hx)]
      symm
      rw [List.filter_eq_nil_iff]
      intro y hy
      simp only [decide_eq_true_eq]
      intro hlt
      exact hx (lt_of_le_of_lt (hrel y hy) hlt)

/-- On a list sorted by key, `dropWhile (key · < q)` is exactly the
`q ≤ key` suffix. -/
theorem sorted_key_dropWhile_eq_filter {β : Type} (key : β → ℚ) :
    ∀ (l : List β), List.Sorted (fun x y => key x ≤ key y) l → ∀ (q : ℚ),
      l.dropWhile (fun x => decide (key x < q)) =
        l.filter (fun x => decide (q ≤ key x)) := by
  intro l
  induction l with
  | nil => intro _ _; rfl
  | cons x t ih =>
    intro hs q
    obtain ⟨hrel, ht⟩ := List.sorted_cons.1 hs
    by_cases hx : key x < q
    · rw [List.dropWhile_cons_of_pos (by simpa using hx),
        List.filter_cons_of_neg (by simp [not_le.2 hx]), ih ht q]
    · rw [List.dropWhile_cons_of_neg (by simpa using hx),
        List.filter_cons_of_pos (by simpa using not_lt.1 hx)]
      congr 1
      symm
      rw [List.filter_eq_self]
      intro y hy
      simpa using le_trans (not_lt.1 hx) (hrel y hy)

/-- Central windowing identity.  In a list that is sorted both by a `ks`
("stop") key and by a `kp` ("start") key, the slice from the end of the
`ks < a` prefix up to the end of the `kp < b` prefix consists of exactly the
entries with `a ≤ ks` and `kp < b`. -/
theorem slice_eq_filter {β : Type} (ks kp : β → ℚ) (T : List β)
    (hks : List.Sorted (fun x y => ks x ≤ ks y) T)
    (hkp : List.Sorted (fun x y => kp x ≤ kp y) T) (a b : ℚ) :
    ((T.drop (T.takeWhile (fun t => decide (ks t < a))).length).take
        ((T.takeWhile (fun t => decide (kp t < b))).length -
          (T.takeWhile (fun t => decide (ks t < a))).length)) =
      T.filter (fun t => decide (a ≤ ks t ∧ kp t < b)) := by
  set pa : β → Bool := fun t => decide (ks t < a) with hpa
  set pb : β → Bool := fun t => decide (kp t < b) with hpb
  set TWa := T.takeWhile pa with hTWa
  set DWa := T.dropWhile pa with hDWa
  have hdecomp : TWa ++ DWa = T := List.takeWhile_append_dropWhile pa T
  have hdrop : T.drop TWa.length = DWa := drop_takeWhile_length pa T
  -- the right-hand side reduces to a filter over the suffix `DWa`
  have hDWa_filter : DWa = T.filter (fun t => decide (a ≤ ks t)) :=
    sorted_key_dropWhile_eq_filter ks T hks a
  have hrhs : T.filter (fun t => decide (a ≤ ks t ∧ kp t < b)) =
      DWa.filter pb := by
    rw [hDWa_filter, List.filter_filter]
    apply List.filter_congr
    intro x _
    simp [hpb, Bool.and_comm]
  -- `DWa` inherits both sorted orders
  have hDWa_sub : DWa.Sublist T := by
    rw [hDWa]
    exact List.dropWhile_sublist pa
  have hkpDWa : List.Sorted (fun x y => kp x ≤ kp y) DWa :=
    List.Pairwise.sublist hDWa_sub hkp
  have hfilter_take : DWa.filter pb = DWa.takeWhile pb :=
    (sorted_key_takeWhile_eq_filter kp DWa hkpDWa b).symm
  rw [hdrop, hrhs, hfilter_take]
  -- it remains to see that the take length is the `takeWhile pb` length
  rw [← take_takeWhile_length pb DWa]
  congr 1
  by_cases hall : ∀ x ∈ TWa, pb x = true
  · have : T.takeWhile pb = TWa ++ DWa.takeWhile pb := by
      rw [← hdecomp] at hkp ⊢
      exact takeWhile_append_all pb TWa DWa hall
    rw [this, List.length_append]
    omega
  · push_neg at hall
    obtain ⟨x, hx, hpx0⟩ := hall
    have hpx : pb x = false := by simpa using hpx0
    have hstop : T.takeWhile pb = TWa.takeWhile pb := by
      rw [← hdecomp]
      exact takeWhile_append_stop pb TWa DWa ⟨x, hx, hpx⟩
    have h1 : (T.takeWhile pb).length ≤ TWa.length := by
      rw [hstop]
      exact (List.takeWhile_sublist _).length_le
    have h2 : DWa.takeWhile pb = [] := by
      have hcross : ∀ u ∈ DWa, pb u = false := by
        intro u hu
        have hxle : kp x ≤ kp u := by
          rw [← hdecomp] at hkp
          exact (List.pairwise_append.1 hkp).2.2 x hx u hu
        have hbx : b ≤ kp x := by
          have := of_decide_eq_false hpx
          exact not_lt.1 this
        simp [hpb, not_lt.2 (le_trans hbx hxle)]
      cases hD : DWa with
      | nil => rfl
      | cons u r =>
        apply List.takeWhile_cons_of_neg
        simp [hcross u (hD ▸ List.mem_cons_self u r)]
    rw [h2]
    simp
    omega

/-- Comparison realizing `np.argsort(self.data_ts)` followed by applying the
same permutation to both arrays: the (timestamp, datum) pairs are sorted by
timestamp.  numpy's default argsort is unstable, so its tie-break among equal
timestamps is unspecified; this model realizes one valid permutation with a
stable sort (the spec flags the tie-break as unspecified reference
behavior). -/
def tsLe {α : Type} (p q : ℚ × α) : Prop := p.1 ≤ q.1

instance {α : Type} : DecidableRel (@tsLe α) :=
  fun p q => inferInstanceAs (Decidable (p.1 ≤ q.1))

instance {α : Type} : IsTotal (ℚ × α) tsLe := ⟨fun p q => le_total p.1 q.1⟩

instance {α : Type} : IsTrans (ℚ × α) tsLe := ⟨fun _ _ _ h1 h2 => le_trans h1 h2⟩

/-- `class Bisector`: "Stores data with associated timestamps, both sorted by
the timestamp."  `data` is the Python list `self.data`, `data_ts` the numpy
array `self.data_ts`. -/
structure Bisector (α : Type) : Type where
  /-- `self.data`, after construction reordered by timestamp. -/
  data : List α
  /-- `self.data_ts`, after construction sorted ascending. -/
  data_ts : List ℚ
deriving DecidableEq, Repr

/-- `Bisector.__init__(data, data_ts)` (lines 46-65): raises `ValueError`
when the lengths differ, otherwise sorts both sequences by the timestamps
(`np.argsort` + fancy indexing).  The `elif not data` branch produces the
empty index, which coincides with sorting the empty pair list, so both
branches are captured by one expression. -/
def mkBisector {α : Type} (data : List α) (data_ts : List ℚ) :
    Except PyErr (Bisector α) :=
  if data.length ≠ data_ts.length then .error .valueError
  else
    .ok ⟨((data_ts.zip data).insertionSort tsLe).map Prod.snd,
      ((data_ts.zip data).insertionSort tsLe).map Prod.fst⟩

/-- `Bisector.by_ts(ts)` (lines 67-83): `np.searchsorted`, a guarded read of
both arrays at the found index (`IndexError` is turned into `ValueError`),
then an equality check, returning the datum on exact match and raising
`ValueError` otherwise. -/
def Bisector.by_ts {α : Type} (b : Bisector α) (ts : ℚ) : Except PyErr α :=
  match b.data[bisectLeft b.data_ts ts]?, b.data_ts[bisectLeft b.data_ts ts]? with
  | some found_data, some found_ts =>
    if found_ts = ts then .ok found_data else .error .valueError
  | _, _ => .error .valueError

/-- `Bisector._start_stop_idc_for_window(ts_window)` (lines 89-90):
`np.searchsorted(self.data_ts, ts_window)` applied elementwise to the
window's two endpoints. -/
def Bisector.start_stop_idc_for_window {α : Type} (b : Bisector α)
    (ts_window : ℚ × ℚ) : ℕ × ℕ :=
  (bisectLeft b.data_ts ts_window.1, bisectLeft b.data_ts ts_window.2)

/-- `Bisector.by_ts_window(ts_window)` (lines 85-87): the Python slice
`self.data[start_idx:stop_idx]`. -/
def Bisector.by_ts_window {α : Type} (b : Bisector α) (ts_window : ℚ × ℚ) :
    List α :=
  (b.data.drop (b.start_stop_idc_for_window ts_window).1).take
    ((b.start_stop_idc_for_window ts_window).2 -
      (b.start_stop_idc_for_window ts_window).1)

/-- `Mutable_Bisector.insert(timestamp, datum)` (lines 116-120):
`np.searchsorted` for the insertion point, then `np.insert` /
`list.insert` into both arrays at that index. -/
def Mutable_Bisector.insert {α : Type} (b : Bisector α) (timestamp : ℚ)
    (datum : α) : Bisector α :=
  ⟨b.data.insertIdx (bisectLeft b.data_ts timestamp) datum,
   b.data_ts.insertIdx (bisectLeft b.data_ts timestamp) timestamp⟩

/-- `class Affiliator(Bisector)` (lines 123-142): a `Bisector` over the start
timestamps plus a `stop_ts` array carried through the same permutation. -/
structure Affiliator (α : Type) : Type where
  /-- `self.data`, reordered by start timestamp. -/
  data : List α
  /-- `self.data_ts` — the start timestamps, sorted ascending. -/
  data_ts : List ℚ
  /-- `self.stop_ts`, reordered by the start-timestamp permutation (not
  necessarily sorted itself). -/
  stop_ts : List ℚ
deriving DecidableEq, Repr

/-- `Affiliator.__init__(data, start_ts, stop_ts)` (lines 126-129):
`super().__init__(data, start_ts)` (including its length check), then
`self.stop_ts = np.asarray(stop_ts)[self.sorted_idc]`.  The fancy indexing
needs `stop_ts` to cover every index of the permutation — modelled by
requiring equal lengths (`IndexError` otherwise; the source has no explicit
check, and a strictly longer `stop_ts` would be silently truncated by this
model's zip, a case no claim touches). -/
def mkAffiliator {α : Type} (data : List α) (start_ts stop_ts : List ℚ) :
    Except PyErr (Affiliator α) :=
  if data.length ≠ start_ts.length then .error .valueError
  else if stop_ts.length ≠ start_ts.length then .error .indexError
  else
    .ok ⟨((start_ts.zip (stop_ts.zip data)).insertionSort tsLe).map (fun t => t.2.2),
      ((start_ts.zip (stop_ts.zip data)).insertionSort tsLe).map Prod.fst,
      ((start_ts.zip (stop_ts.zip data)).insertionSort tsLe).map (fun t => t.2.1)⟩

/-- `Affiliator._start_stop_idc_for_window(ts_window)` (lines 131-134): the
start of the result range is searched in the *stop* array, its end in the
*start* array. -/
def Affiliator.start_stop_idc_for_window {α : Type} (A : Affiliator α)
    (ts_window : ℚ × ℚ) : ℕ × ℕ :=
  (bisectLeft A.stop_ts ts_window.1, bisectLeft A.data_ts ts_window.2)

/-- `Affiliator.by_ts_window` — inherited from `Bisector` (lines 85-87), but
dispatching to `Affiliator`'s override of `_start_stop_idc_for_window`. -/
def Affiliator.by_ts_window {α : Type} (A : Affiliator α) (ts_window : ℚ × ℚ) :
    List α :=
  (A.data.drop (A.start_stop_idc_for_window ts_window).1).take
    ((A.start_stop_idc_for_window ts_window).2 -
      (A.start_stop_idc_for_window ts_window).1)

/-- Written from the spec's words, for comparison with the implementation:
"`IntervalIndex.lookup_window(a,b)` returns every interval with `stop ≥ a`
and `start < b`" — the data entries whose co-indexed (start, stop) pair
overlaps the window, in index order. -/
def overlapSpec {α : Type} (A : Affiliator α) (a b : ℚ) : List α :=
  ((A.data.zip (A.data_ts.zip A.stop_ts)).filter
    (fun t => decide (a ≤ t.2.2 ∧ t.2.1 < b))).map Prod.fst

/-- Unpacking a successful construction. -/
theorem mkBisector_ok {α : Type} {data : List α} {ts : List ℚ} {b : Bisector α}
    (h : mkBisector data ts = .ok b) :
    data.length = ts.length ∧
    b.data = ((ts.zip data).insertionSort tsLe).map Prod.snd ∧
    b.data_ts = ((ts.zip data).insertionSort tsLe).map Prod.fst := by
  rw [mkBisector] at h
  split at h
  · exact absurd h (by simp)
  · next hne =>
    injection h with h'
    subst h'
    exact ⟨not_ne_iff.1 hne, rfl, rfl⟩

/-- The sorted pair list is sorted on its timestamp component. -/
theorem sorted_map_fst {α : Type} (l : List (ℚ × α)) :
    ((l.insertionSort tsLe).map Prod.fst).Sorted (· ≤ ·) :=
  List.Pairwise.map _ (fun _ _ hab => hab) (List.sorted_insertionSort tsLe l)

/-- On a sorted array, position `i` holds a value `< q` exactly when `i` is
left of the insertion point. -/
theorem bisect_get_lt_iff (arr : List ℚ) (hs : arr.Sorted (· ≤ ·)) (q : ℚ)
    (i : ℕ) (hi : i < arr.length) :
    (arr.get ⟨i, hi⟩ < q ↔ i < bisectLeft arr q) := by
  rw [bisectLeft_sorted arr hs q]
  exact sorted_key_get_lt_iff (fun x => x) arr hs q i hi

/-- On a sorted array containing `q`, the insertion point is in range and
holds exactly `q`. -/
theorem bisect_mem (arr : List ℚ) (hs : arr.Sorted (· ≤ ·)) (q : ℚ)
    (hq : q ∈ arr) :
    ∃ hlt : bisectLeft arr q < arr.length, arr.get ⟨bisectLeft arr q, hlt⟩ = q := by
  obtain ⟨⟨j, hj⟩, hjq⟩ := List.mem_iff_get.1 hq
  have hjc : ¬ j < bisectLeft arr q := by
    intro hlt
    have := (bisect_get_lt_iff arr hs q j hj).2 hlt
    rw [hjq] at this
    exact lt_irrefl q this
  have hc_le_j : bisectLeft arr q ≤ j := not_lt.1 hjc
  have hlt : bisectLeft arr q < arr.length := lt_of_le_of_lt hc_le_j hj
  refine ⟨hlt, ?_⟩
  have hle : arr.get ⟨bisectLeft arr q, hlt⟩ ≤ arr.get ⟨j, hj⟩ :=
    hs.get_mono (by simpa using hc_le_j)
  have hge : ¬ arr.get ⟨bisectLeft arr q, hlt⟩ < q :=
    fun hltq => lt_irrefl _ ((bisect_get_lt_iff arr hs q _ hlt).1 hltq)
  rw [hjq] at hle
  exact le_antisymm hle (not_lt.1 hge)

/-- C7.  For every successfully constructed index and query timestamp `q`,
`by_ts` returns a datum originally paired with `q` when `q` occurs verbatim
in the timestamp array, and raises `ValueError` (the spec's NotFoundError)
otherwise — including when `q` lies outside the index's range and when the
index is empty. -/
theorem claim_C7 {α : Type} (data : List α) (ts : List ℚ) (b : Bisector α)
    (h : mkBisector data ts = .ok b) (q : ℚ) :
    (q ∈ ts → ∃ d, b.by_ts q = .ok d ∧ (q, d) ∈ ts.zip data) ∧
    (q ∉ ts → b.by_ts q = .error .valueError) := by
  obtain ⟨hlen, hdata, hts⟩ := mkBisector_ok h
  have hperm : ((ts.zip data).insertionSort tsLe).Perm (ts.zip data) :=
    List.perm_insertionSort tsLe (ts.zip data)
  have hS : b.data_ts.Sorted (· ≤ ·) := by
    rw [hts]
    exact sorted_map_fst (ts.zip data)
  have hmem_ts : ∀ x, x ∈ b.data_ts ↔ x ∈ ts := by
    intro x
    rw [hts, (hperm.map Prod.fst).mem_iff,
      List.map_fst_zip ts data (le_of_eq hlen.symm)]
  have hlen_eq : b.data.length = b.data_ts.length := by
    rw [hdata, hts, List.length_map, List.length_map]
  set i := bisectLeft b.data_ts q with hidef
  constructor
  · intro hq
    obtain ⟨hlt0, hget0⟩ := bisect_mem b.data_ts hS q ((hmem_ts q).2 hq)
    have hlt : i < b.data_ts.length := by
      rw [hidef]
      exact hlt0
    have hdts_opt : b.data_ts[i]? = some q := by
      rw [hidef, List.getElem?_eq_getElem hlt0]
      exact congrArg some hget0
    have hpairs_lt : i < ((ts.zip data).insertionSort tsLe).length := by
      have hlen2 : b.data_ts.length = ((ts.zip data).insertionSort tsLe).length := by
        rw [hts, List.length_map]
      omega
    have hltd : i < b.data.length := by
      rw [hlen_eq]
      exact hlt
    have hd_opt : b.data[i]? =
        some ((((ts.zip data).insertionSort tsLe).get ⟨i, hpairs_lt⟩).2) := by
      rw [hdata, List.getElem?_map, List.getElem?_eq_getElem hpairs_lt]
      rfl
    refine ⟨(((ts.zip data).insertionSort tsLe).get ⟨i, hpairs_lt⟩).2, ?_, ?_⟩
    · rw [Bisector.by_ts, ← hidef, hd_opt, hdts_opt]
      show (if q = q then
          Except.ok ((((ts.zip data).insertionSort tsLe).get ⟨i, hpairs_lt⟩).2)
        else Except.error PyErr.valueError) = _
      rw [if_pos rfl]
    · have hfst : (((ts.zip data).insertionSort tsLe).get ⟨i, hpairs_lt⟩).1 = q := by
        have h1 := hdts_opt
        rw [hts, List.getElem?_map, List.getElem?_eq_getElem hpairs_lt] at h1
        exact Option.some.inj h1
      have hmem : ((ts.zip data).insertionSort tsLe).get ⟨i, hpairs_lt⟩ ∈
          (ts.zip data).insertionSort tsLe := List.get_mem _ _ _
      have hzip := hperm.mem_iff.1 hmem
      have hpair_eq : (q, (((ts.zip data).insertionSort tsLe).get ⟨i, hpairs_lt⟩).2) =
          ((ts.zip data).insertionSort tsLe).get ⟨i, hpairs_lt⟩ := by
        rw [← hfst]
      rw [hpair_eq]
      exact hzip
  · intro hq
    have hqS : q ∉ b.data_ts := fun hx => hq ((hmem_ts q).1 hx)
    by_cases hlt : i < b.data_ts.length
    · have hltd : i < b.data.length := by
        rw [hlen_eq]
        exact hlt
      have hdts_opt : b.data_ts[i]? = some (b.data_ts.get ⟨i, hlt⟩) := by
        rw [List.getElem?_eq_getElem hlt, List.get_eq_getElem]
      have hd_opt : b.data[i]? = some (b.data.get ⟨i, hltd⟩) := by
        rw [List.getElem?_eq_getElem hltd, List.get_eq_getElem]
      rw [Bisector.by_ts, ← hidef, hd_opt, hdts_opt]
      have hne : b.data_ts.get ⟨i, hlt⟩ ≠ q := by
        intro heq
        exact hqS (heq ▸ List.get_mem _ _ _)
      show (if b.data_ts.get ⟨i, hlt⟩ = q then Except.ok (b.data.get ⟨i, hltd⟩)
        else Except.error PyErr.valueError) = _
      rw [if_neg hne]
    · have hnone : b.data_ts[i]? = none :=
        List.getElem?_eq_none (not_lt.1 hlt)
      have hnoned : b.data[i]? = none :=
        List.getElem?_eq_none (by rw [hlen_eq]; exact not_lt.1 hlt)
      rw [Bisector.by_ts, ← hidef, hnone, hnoned]

/-- C7, witness: values `[10, 20, 30]` with timestamps `[5, 1, 3]`;
`by_ts 3` returns `30` (paired with `3` in the input), `by_ts 4` raises. -/
theorem claim_C7_witness :
    ((3 : ℚ) ∈ [(5 : ℚ), 1, 3] ∧
      ∃ d, Bisector.by_ts (⟨[20, 30, 10], [1, 3, 5]⟩ : Bisector ℕ) 3 = .ok d ∧
        ((3 : ℚ), d) ∈ ([(5 : ℚ), 1, 3].zip [10, 20, 30])) ∧
    ((4 : ℚ) ∉ [(5 : ℚ), 1, 3] ∧
      Bisector.by_ts (⟨[20, 30, 10], [1, 3, 5]⟩ : Bisector ℕ) 4 =
        .error .valueError) :=
  ⟨⟨by decide,
    (claim_C7 [10, 20, 30] [(5 : ℚ), 1, 3] ⟨[20, 30, 10], [1, 3, 5]⟩
      (by decide) 3).1 (by decide)⟩,
   ⟨by decide,
    (claim_C7 [10, 20, 30] [(5 : ℚ), 1, 3] ⟨[20, 30, 10], [1, 3, 5]⟩
      (by decide) 4).2 (by decide)⟩⟩

/-- C8.  For every successfully constructed index and window `[a, c)`,
`by_ts_window` returns exactly the data whose timestamps `t` satisfy
`a ≤ t < c`: the filter of the timestamp-sorted pair list (hence one
contiguous slice in ascending timestamp order, second conjunct), which is a
permutation of the matching entries of the original input (third conjunct);
and the spec's Scenario 1 instance: values `['a','b','c']`, timestamps
`[5,1,3]`, `lookup_window(2,6) = ['c','a']` (final conjunct). -/
theorem claim_C8 {α : Type} (data : List α) (ts : List ℚ) (b : Bisector α)
    (h : mkBisector data ts = .ok b) (a c : ℚ) :
    b.by_ts_window (a, c) =
      (((ts.zip data).insertionSort tsLe).filter
        (fun p => decide (a ≤ p.1 ∧ p.1 < c))).map Prod.snd ∧
    ((((ts.zip data).insertionSort tsLe).filter
        (fun p => decide (a ≤ p.1 ∧ p.1 < c))).map Prod.fst).Sorted (· ≤ ·) ∧
    (b.by_ts_window (a, c)).Perm
      (((ts.zip data).filter (fun p => decide (a ≤ p.1 ∧ p.1 < c))).map Prod.snd) ∧
    (mkBisector ['a', 'b', 'c'] [(5 : ℚ), 1, 3] =
        .ok ⟨['b', 'c', 'a'], [(1 : ℚ), 3, 5]⟩ ∧
      Bisector.by_ts_window (⟨['b', 'c', 'a'], [(1 : ℚ), 3, 5]⟩ : Bisector Char)
        (2, 6) = ['c', 'a']) := by
  obtain ⟨hlen, hdata, hts⟩ := mkBisector_ok h
  have hsorted : ((ts.zip data).insertionSort tsLe).Sorted tsLe :=
    List.sorted_insertionSort tsLe _
  have hS : (((ts.zip data).insertionSort tsLe).map Prod.fst).Sorted (· ≤ ·) :=
    sorted_map_fst _
  have hmain : b.by_ts_window (a, c) =
      (((ts.zip data).insertionSort tsLe).filter
        (fun p => decide (a ≤ p.1 ∧ p.1 < c))).map Prod.snd := by
    simp only [Bisector.by_ts_window, Bisector.start_stop_idc_for_window]
    rw [hts, hdata]
    rw [bisectLeft_sorted _ hS a, bisectLeft_sorted _ hS c]
    rw [List.takeWhile_map, List.takeWhile_map, List.length_map, List.length_map]
    rw [← List.map_drop, ← List.map_take]
    congr 1
    exact slice_eq_filter Prod.fst Prod.fst ((ts.zip data).insertionSort tsLe)
      hsorted hsorted a c
  refine ⟨hmain, ?_, ?_, by decide, by decide⟩
  · exact List.Pairwise.map _ (fun _ _ hab => hab)
      (List.Pairwise.sublist (List.filter_sublist _) hsorted)
  · rw [hmain]
    exact ((List.perm_insertionSort tsLe (ts.zip data)).filter _).map Prod.snd

/-- C8, witness at Scenario 1's input. -/
theorem claim_C8_witness :
    mkBisector ['a', 'b', 'c'] [(5 : ℚ), 1, 3] =
      .ok ⟨['b', 'c', 'a'], [(1 : ℚ), 3, 5]⟩ ∧
    Bisector.by_ts_window (⟨['b', 'c', 'a'], [(1 : ℚ), 3, 5]⟩ : Bisector Char)
        (2, 6) =
      ((([(5 : ℚ), 1, 3].zip ['a', 'b', 'c']).insertionSort tsLe).filter
        (fun p => decide (2 ≤ p.1 ∧ p.1 < 6))).map Prod.snd :=
  ⟨by decide,
   (claim_C8 ['a', 'b', 'c'] [(5 : ℚ), 1, 3] ⟨['b', 'c', 'a'], [(1 : ℚ), 3, 5]⟩
     (by decide) 2 6).1⟩

/-- `insertIdx` at an in-range position splits as take/cons/drop. -/
theorem insertIdx_split {β : Type} (x : β) :
    ∀ (n : ℕ) (l : List β), n ≤ l.length →
      l.insertIdx n x = l.take n ++ x :: l.drop n := by
  intro n
  induction n with
  | zero => intro l _; rfl
  | succ m ih =>
    intro l hl
    cases l with
    | nil => simp at hl
    | cons y t =>
      rw [List.insertIdx_succ_cons, ih t (by simpa using hl),
        List.take_succ_cons, List.drop_succ_cons, List.cons_append]

/-- C9.  Construction establishes the container invariant (equal lengths,
ascending timestamps; length mismatch raises `ValueError`, empty input gives
the valid empty index), and `Mutable_Bisector.insert` preserves it from any
state satisfying it: the new timestamp and datum are spliced into both
arrays at the binary-search insertion point. -/
theorem claim_C9 (α : Type) :
    (∀ (data : List α) (ts : List ℚ) (b : Bisector α), mkBisector data ts = .ok b →
      b.data.length = b.data_ts.length ∧ b.data_ts.Sorted (· ≤ ·)) ∧
    (∀ (data : List α) (ts : List ℚ), data.length ≠ ts.length →
      mkBisector data ts = .error .valueError) ∧
    (mkBisector ([] : List α) [] = .ok ⟨[], []⟩) ∧
    (∀ (b : Bisector α) (t : ℚ) (d : α),
      b.data.length = b.data_ts.length → b.data_ts.Sorted (· ≤ ·) →
      (Mutable_Bisector.insert b t d).data.length =
          (Mutable_Bisector.insert b t d).data_ts.length ∧
        ((Mutable_Bisector.insert b t d).data_ts).Sorted (· ≤ ·)) := by
  refine ⟨?_, ?_, rfl, ?_⟩
  · intro data ts b h
    obtain ⟨hlen, hdata, hts⟩ := mkBisector_ok h
    constructor
    · rw [hdata, hts, List.length_map, List.length_map]
    · rw [hts]
      exact sorted_map_fst _
  · intro data ts h
    rw [mkBisector, if_pos h]
  · intro b t d hlen hsorted
    have hle : bisectLeft b.data_ts t ≤ b.data_ts.length := by
      rw [bisectLeft_sorted _ hsorted t]
      exact (List.takeWhile_sublist _).length_le
    have hled : bisectLeft b.data_ts t ≤ b.data.length := by
      rw [hlen]
      exact hle
    constructor
    · rw [Mutable_Bisector.insert]
      rw [List.length_insertIdx _ _ hled, List.length_insertIdx _ _ hle, hlen]
    · rw [Mutable_Bisector.insert]
      dsimp only
      rw [bisectLeft_sorted _ hsorted t]
      rw [insertIdx_split t _ _ ((List.takeWhile_sublist _).length_le)]
      rw [take_takeWhile_length, drop_takeWhile_length]
      refine List.pairwise_append.2
        ⟨List.Pairwise.sublist (List.takeWhile_sublist _) hsorted, ?_, ?_⟩
      · refine List.pairwise_cons.2 ⟨?_, ?_⟩
        · intro y hy
          have : y ∈ b.data_ts.filter (fun x => decide (t ≤ x)) := by
            rw [← sorted_key_dropWhile_eq_filter (fun x => x) b.data_ts hsorted t]
            exact hy
          simpa using (List.mem_filter.1 this).2
        · exact List.Pairwise.sublist (List.dropWhile_sublist _) hsorted
      · intro x hx y hy
        have hxlt : x < t := by simpa using List.mem_takeWhile_imp hx
        rcases List.mem_cons.1 hy with rfl | hy'
        · exact le_of_lt hxlt
        · have : y ∈ b.data_ts.filter (fun x => decide (t ≤ x)) := by
            rw [← sorted_key_dropWhile_eq_filter (fun x => x) b.data_ts hsorted t]
            exact hy'
          have hty : t ≤ y := by simpa using (List.mem_filter.1 this).2
          exact le_trans (le_of_lt hxlt) hty

/-- C9, witness: a concrete construction and insertion. -/
theorem claim_C9_witness :
    (mkBisector [10, 20] [(4 : ℚ), 2] = .ok (⟨[20, 10], [2, 4]⟩ : Bisector ℕ) ∧
      (⟨[20, 10], [2, 4]⟩ : Bisector ℕ).data.length =
        (⟨[20, 10], [2, 4]⟩ : Bisector ℕ).data_ts.length ∧
      (⟨[20, 10], [2, 4]⟩ : Bisector ℕ).data_ts.Sorted (· ≤ ·)) ∧
    ((Mutable_Bisector.insert (⟨[20, 10], [2, 4]⟩ : Bisector ℕ) 3 15).data.length =
        (Mutable_Bisector.insert (⟨[20, 10], [2, 4]⟩ : Bisector ℕ) 3 15).data_ts.length ∧
      ((Mutable_Bisector.insert (⟨[20, 10], [2, 4]⟩ : Bisector ℕ) 3 15).data_ts).Sorted
        (· ≤ ·)) :=
  ⟨⟨by decide,
    (claim_C9 ℕ).1 [10, 20] [(4 : ℚ), 2] ⟨[20, 10], [2, 4]⟩ (by decide)⟩,
   (claim_C9 ℕ).2.2.2 ⟨[20, 10], [2, 4]⟩ 3 15 (by decide) (by decide)⟩

/-- C6, counterexample.  The interval set with starts `[0, 10]` and stops
`[100, 11]` (nested intervals: stops not ascending) is a constructible
`Affiliator`; for the window `[50, 1000)` the interval `(0, 100)` satisfies
`stop ≥ 50` and `start < 1000`, yet `by_ts_window` returns the empty list,
because `np.searchsorted` on the *unsorted* stop array lands past it.  So
lookup_window does not return exactly the overlapping intervals for every
constructed index. -/
theorem claim_C6_counterexample :
    mkAffiliator [0, 1] [(0 : ℚ), 10] [(100 : ℚ), 11] =
      .ok (⟨[0, 1], [(0 : ℚ), 10], [(100 : ℚ), 11]⟩ : Affiliator ℕ) ∧
    overlapSpec (⟨[0, 1], [(0 : ℚ), 10], [(100 : ℚ), 11]⟩ : Affiliator ℕ)
      50 1000 = [0] ∧
    Affiliator.by_ts_window (⟨[0, 1], [(0 : ℚ), 10], [(100 : ℚ), 11]⟩ : Affiliator ℕ)
      (50, 1000) = [] ∧
    Affiliator.by_ts_window (⟨[0, 1], [(0 : ℚ), 10], [(100 : ℚ), 11]⟩ : Affiliator ℕ)
        (50, 1000) ≠
      overlapSpec (⟨[0, 1], [(0 : ℚ), 10], [(100 : ℚ), 11]⟩ : Affiliator ℕ)
        50 1000 := by
  decide

/-- Unpacking a successful `Affiliator` construction. -/
theorem mkAffiliator_ok {α : Type} {data : List α} {start_ts stop_ts : List ℚ}
    {A : Affiliator α} (h : mkAffiliator data start_ts stop_ts = .ok A) :
    A.data = ((start_ts.zip (stop_ts.zip data)).insertionSort tsLe).map
        (fun t => t.2.2) ∧
    A.data_ts = ((start_ts.zip (stop_ts.zip data)).insertionSort tsLe).map
        Prod.fst ∧
    A.stop_ts = ((start_ts.zip (stop_ts.zip data)).insertionSort tsLe).map
        (fun t => t.2.1) := by
  rw [mkAffiliator] at h
  split at h
  · exact absurd h (by simp)
  · split at h
    · exact absurd h (by simp)
    · injection h with h'
      subst h'
      exact ⟨rfl, rfl, rfl⟩

/-- C6, amended.  The claim holds for every constructed `Affiliator` whose
stop array (carried through the start-sorting permutation) is itself
ascending — which is the case for the non-overlapping interval streams the
index is built for, and what `np.searchsorted` on the stop array requires:
then `by_ts_window (a, c)` returns exactly the data of the intervals with
`stop ≥ a` and `start < c`, in index order, the start of the slice being the
first index whose stop is `≥ a` and its end the first index whose start is
`≥ c`.  For a constructed index with a non-monotone stop array the claim
fails (see the counterexample). -/
theorem claim_C6_amended {α : Type} (data : List α) (start_ts stop_ts : List ℚ)
    (A : Affiliator α) (h : mkAffiliator data start_ts stop_ts = .ok A)
    (hstop : A.stop_ts.Sorted (· ≤ ·)) (a c : ℚ) :
    A.by_ts_window (a, c) = overlapSpec A a c := by
  obtain ⟨hdata, hstart, hstops⟩ := mkAffiliator_ok h
  have hsorted : ((start_ts.zip (stop_ts.zip data)).insertionSort tsLe).Sorted
      tsLe := List.sorted_insertionSort tsLe _
  have hS : (((start_ts.zip (stop_ts.zip data)).insertionSort tsLe).map
      Prod.fst).Sorted (· ≤ ·) := sorted_map_fst _
  have hS2 : (((start_ts.zip (stop_ts.zip data)).insertionSort tsLe).map
      (fun t => t.2.1)).Sorted (· ≤ ·) := by
    rw [← hstops]
    exact hstop
  have hrhs : overlapSpec A a c =
      (((start_ts.zip (stop_ts.zip data)).insertionSort tsLe).filter
        (fun t => decide (a ≤ t.2.1 ∧ t.1 < c))).map (fun t => t.2.2) := by
    rw [overlapSpec, hdata, hstart, hstops]
    rw [List.zip_map', List.zip_map', List.filter_map, List.map_map]
    rfl
  rw [hrhs]
  simp only [Affiliator.by_ts_window, Affiliator.start_stop_idc_for_window]
  rw [hstart, hdata, hstops]
  rw [bisectLeft_sorted _ hS2 a, bisectLeft_sorted _ hS c]
  rw [List.takeWhile_map, List.takeWhile_map, List.length_map, List.length_map]
  rw [← List.map_drop, ← List.map_take]
  congr 1
  have hks : ((start_ts.zip (stop_ts.zip data)).insertionSort tsLe).Sorted
      (fun x y => x.2.1 ≤ y.2.1) := List.pairwise_map.1 hS2
  have hkp : ((start_ts.zip (stop_ts.zip data)).insertionSort tsLe).Sorted
      (fun x y => x.1 ≤ y.1) := List.pairwise_map.1 hS
  exact slice_eq_filter (fun t => t.2.1) Prod.fst
    ((start_ts.zip (stop_ts.zip data)).insertionSort tsLe) hks hkp a c

/-- C6, witness at the spec's Scenario 4: intervals `(0,5), (10,15), (20,25)`
with window `[4, 12)` — the first two overlap and are returned. -/
theorem claim_C6_witness :
    mkAffiliator [0, 1, 2] [(0 : ℚ), 10, 20] [(5 : ℚ), 15, 25] =
      .ok (⟨[0, 1, 2], [(0 : ℚ), 10, 20], [(5 : ℚ), 15, 25]⟩ : Affiliator ℕ) ∧
    (⟨[0, 1, 2], [(0 : ℚ), 10, 20], [(5 : ℚ), 15, 25]⟩ :
      Affiliator ℕ).stop_ts.Sorted (· ≤ ·) ∧
    Affiliator.by_ts_window
        (⟨[0, 1, 2], [(0 : ℚ), 10, 20], [(5 : ℚ), 15, 25]⟩ : Affiliator ℕ)
        (4, 12) =
      overlapSpec (⟨[0, 1, 2], [(0 : ℚ), 10, 20], [(5 : ℚ), 15, 25]⟩ : Affiliator ℕ)
        4 12 :=
  ⟨by decide, by decide,
   claim_C6_amended [0, 1, 2] [(0 : ℚ), 10, 20] [(5 : ℚ), 15, 25]
     ⟨[0, 1, 2], [(0 : ℚ), 10, 20], [(5 : ℚ), 15, 25]⟩ (by decide) (by decide) 4 12⟩

/-- The midpoint used for the last frame pair — the largest midpoint the
loop can compute before running out of "next frames". -/
def lastMid (timestamps : List ℚ) : ℚ :=
  (timestamps.getD (timestamps.length - 2) 0 +
    timestamps.getD (timestamps.length - 1) 0) / 2

/-- The `while True` loop of `correlate_data` (lines 183-199).  State: the
event cursor `data_index`, the frame cursor `frame_idx`, and the bucket list
`data_by_frame`.  Each iteration either consumes the current event into the
current frame's bucket (when its timestamp is at most the midpoint of the
current and next frame timestamps) or advances the frame cursor; the `try`
block's `IndexError` (events exhausted, or no next frame) breaks the loop. -/
def cLoop {α : Type} (data : List (ℚ × α)) (timestamps : List ℚ) :
    ℕ → ℕ → List (List (ℚ × α)) → List (List (ℚ × α))
  | data_index, frame_idx, data_by_frame =>
    if h : data_index < data.length ∧ frame_idx + 1 < timestamps.length then
      if (data.get ⟨data_index, h.1⟩).1 ≤
          (timestamps.get ⟨frame_idx, by omega⟩ +
            timestamps.get ⟨frame_idx + 1, h.2⟩) / 2 then
        cLoop data timestamps (data_index + 1) frame_idx
          (data_by_frame.set frame_idx
            (data_by_frame.getD frame_idx [] ++ [data.get ⟨data_index, h.1⟩]))
      else
        cLoop data timestamps data_index (frame_idx + 1) data_by_frame
    else data_by_frame
termination_by di fi _ => (data.length - di) + (timestamps.length - fi)
decreasing_by
  · omega
  · omega

/-- `correlate_data(data, timestamps)` (lines 161-201).  Events are `(ts,
payload)` pairs (the source's dicts, of which only `d["timestamp"]` is
read).  Returns the bucket list together with the post-call contents of the
caller's two arguments: `data` is sorted *in place* by timestamp at line 181
(Python's stable `list.sort`), while `timestamps` is copied at line 175 and
never written. -/
def correlate_data {α : Type} (data : List (ℚ × α)) (timestamps : List ℚ) :
    List (List (ℚ × α)) × List (ℚ × α) × List ℚ :=
  (cLoop (data.insertionSort tsLe) timestamps 0 0 (timestamps.map fun _ => []),
   data.insertionSort tsLe, timestamps)

/-- C10.  `correlate_data` mutates its first argument: after the call the
caller's events list has been reordered in place into ascending-timestamp
order (a stably sorted permutation of what was passed), while the
`frame_timestamps` argument is copied before use and left unmodified. -/
theorem claim_C10 {α : Type} (data : List (ℚ × α)) (timestamps : List ℚ) :
    (correlate_data data timestamps).2.1 = data.insertionSort tsLe ∧
    ((correlate_data data timestamps).2.1).Sorted tsLe ∧
    ((correlate_data data timestamps).2.1).Perm data ∧
    (correlate_data data timestamps).2.2 = timestamps :=
  ⟨rfl, List.sorted_insertionSort tsLe data, List.perm_insertionSort tsLe data, rfl⟩

/-- Appending a datum to bucket `i` appends it to the concatenation of all
buckets, provided every bucket after `i` is still empty. -/
theorem flatten_set_append {γ : Type} (d : γ) :
    ∀ (acc : List (List γ)) (i : ℕ), i < acc.length →
      (∀ (j : ℕ) (hj : j < acc.length), i < j → acc.get ⟨j, hj⟩ = []) →
      (acc.set i (acc.getD i [] ++ [d])).flatten = acc.flatten ++ [d] := by
  intro acc
  induction acc with
  | nil => intro i hi _; exact absurd hi (by simp)
  | cons x t ih =>
    intro i hi hz
    cases i with
    | zero =>
      have ht : t.flatten = [] := by
        rw [List.flatten_eq_nil_iff]
        intro l hl
        obtain ⟨⟨j, hj⟩, hjl⟩ := List.mem_iff_get.1 hl
        have := hz (j + 1) (by simpa using hj) (by omega)
        rw [← hjl]
        simpa using this
      simp [List.getD_cons_zero, ht]
    | succ m =>
      have hm : m < t.length := by simpa using hi
      have hz' : ∀ (j : ℕ) (hj : j < t.length), m < j → t.get ⟨j, hj⟩ = [] := by
        intro j hj hmj
        have := hz (j + 1) (by simpa using hj) (by omega)
        simpa using this
      rw [List.set_cons_succ, List.getD_cons_succ]
      rw [List.flatten_cons, List.flatten_cons, ih m hm hz', List.append_assoc]

/-- The loop never changes the number of buckets. -/
theorem cLoop_length_aux {α : Type} (data : List (ℚ × α)) (T : List ℚ) :
    ∀ (fuel di fi : ℕ) (acc : List (List (ℚ × α))),
      data.length - di + (T.length - fi) ≤ fuel →
      (cLoop data T di fi acc).length = acc.length := by
  intro fuel
  induction fuel with
  | zero =>
    intro di fi acc hf
    rw [cLoop, dif_neg (by omega)]
  | succ k ih =>
    intro di fi acc hf
    rw [cLoop]
    by_cases h : di < data.length ∧ fi + 1 < T.length
    · rw [dif_pos h]
      split
      · rw [ih (di + 1) fi _ (by omega), List.length_set]
      · exact ih di (fi + 1) acc (by omega)
    · rw [dif_neg h]

/-- One bucket per frame timestamp. -/
theorem cLoop_length {α : Type} (data : List (ℚ × α)) (T : List ℚ)
    (di fi : ℕ) (acc : List (List (ℚ × α))) :
    (cLoop data T di fi acc).length = acc.length :=
  cLoop_length_aux data T (data.length + T.length) di fi acc (by omega)

/-- Main loop invariant: with frames sorted and a genuine next frame, the
loop appends to the buckets exactly the maximal prefix of the remaining
(sorted) events whose timestamps do not exceed the last computable
midpoint; everything after the first event beyond it is dropped. -/
theorem cLoop_flatten_aux {α : Type} (data : List (ℚ × α)) (T : List ℚ)
    (hT : T.Sorted (· ≤ ·)) :
    ∀ (fuel di fi : ℕ) (acc : List (List (ℚ × α))),
      data.length - di + (T.length - fi) ≤ fuel →
      acc.length = T.length →
      (∀ (j : ℕ) (hj : j < acc.length), fi < j → acc.get ⟨j, hj⟩ = []) →
      fi + 1 < T.length →
      (cLoop data T di fi acc).flatten =
        acc.flatten ++
          (data.drop di).takeWhile (fun d => decide (d.1 ≤ lastMid T)) := by
  intro fuel
  induction fuel with
  | zero =>
    intro di fi acc hf _ _ hfi
    omega
  | succ k ih =>
    intro di fi acc hf hlen hinv hfi
    rw [cLoop]
    by_cases hd : di < data.length
    · have h : di < data.length ∧ fi + 1 < T.length := ⟨hd, hfi⟩
      rw [dif_pos h]
      have hfiT : fi < T.length := by omega
      have hgd : ∀ (m : ℕ) (hm : m < T.length), T.getD m 0 = T.get ⟨m, hm⟩ := by
        intro m hm
        rw [List.getD_eq_getElem T 0 hm, List.get_eq_getElem]
      have hn2 : T.length - 2 < T.length := by omega
      have hn1 : T.length - 1 < T.length := by omega
      have hmid_le : (T.get ⟨fi, by omega⟩ + T.get ⟨fi + 1, h.2⟩) / 2 ≤ lastMid T := by
        have e1 : T.get ⟨fi, by omega⟩ ≤ T.get ⟨T.length - 2, hn2⟩ :=
          hT.get_mono (Fin.mk_le_mk.2 (by omega))
        have e2 : T.get ⟨fi + 1, h.2⟩ ≤ T.get ⟨T.length - 1, hn1⟩ :=
          hT.get_mono (Fin.mk_le_mk.2 (by omega))
        rw [lastMid, hgd (T.length - 2) hn2, hgd (T.length - 1) hn1]
        linarith
      have hdropdi : data.drop di = data.get ⟨di, hd⟩ :: data.drop (di + 1) := by
        rw [List.drop_eq_getElem_cons hd, List.get_eq_getElem]
      split
      next hle =>
        have hinv' : ∀ (j : ℕ)
            (hj : j < (acc.set fi (acc.getD fi [] ++
              [data.get ⟨di, h.1⟩])).length), fi < j →
            (acc.set fi (acc.getD fi [] ++ [data.get ⟨di, h.1⟩])).get ⟨j, hj⟩ = [] := by
          intro j hj hfij
          have hj' : j < acc.length := by simpa using hj
          have hne : fi ≠ j := by omega
          have hstep : (acc.set fi (acc.getD fi [] ++
              [data.get ⟨di, h.1⟩])).get ⟨j, hj⟩ = acc.get ⟨j, hj'⟩ :=
            List.getElem_set_ne hne hj
          rw [hstep]
          exact hinv j hj' hfij
        rw [ih (di + 1) fi _ (by omega) (by simpa using hlen) hinv' hfi]
        rw [flatten_set_append _ acc fi (by omega) hinv]
        rw [hdropdi, List.takeWhile_cons_of_pos
          (by simpa using le_trans hle hmid_le)]
        simp [List.append_assoc]
      next hnle =>
        by_cases hfi2 : fi + 2 < T.length
        · exact ih di (fi + 1) acc (by omega) hlen
            (fun j hj hfij => hinv j hj (by omega)) hfi2
        · rw [cLoop, dif_neg (by omega)]
          have hget_eq : ∀ (m1 m2 : ℕ) (hm1 : m1 < T.length) (hm2 : m2 < T.length),
              m1 = m2 → T.get ⟨m1, hm1⟩ = T.get ⟨m2, hm2⟩ := by
            intro m1 m2 hm1 hm2 he
            subst he
            rfl
          have hmid_eq : (T.get ⟨fi, by omega⟩ + T.get ⟨fi + 1, h.2⟩) / 2 =
              lastMid T := by
            rw [lastMid, hgd (T.length - 2) hn2, hgd (T.length - 1) hn1]
            rw [hget_eq fi (T.length - 2) (by omega) hn2 (by omega),
              hget_eq (fi + 1) (T.length - 1) h.2 hn1 (by omega)]
          rw [hdropdi, List.takeWhile_cons_of_neg
            (by
              rw [← hmid_eq]
              simpa using hnle)]
          rw [List.append_nil]
    · rw [dif_neg (fun hcon => hd hcon.1)]
      rw [List.drop_eq_nil_of_le (not_lt.1 hd)]
      rw [List.takeWhile_nil, List.append_nil]

/-- C5.  For sorted frame timestamps (at least two frames, so that a
midpoint exists), `correlate_data` returns exactly one bucket per frame
timestamp; the concatenation of the buckets is the maximal prefix of the
sorted events whose timestamps are at most the last computable midpoint —
hence no event occurrence lands in more than one bucket (the concatenation
is a sublist of the sorted events), every bucketed event's timestamp is at
most the last midpoint, and every event after the first one beyond it is
silently dropped.  The final conjunct is the spec's Scenario 2: frames
`[0,10,20,30]` with events at `[1,6,9,14,29,35]` yield buckets
`[[1],[6,9,14],[],[]]`, with `29` and `35` in no bucket. -/
theorem claim_C5 {α : Type} (data : List (ℚ × α)) (T : List ℚ)
    (hT : T.Sorted (· ≤ ·)) (hn : 2 ≤ T.length) :
    (correlate_data data T).1.length = T.length ∧
    (correlate_data data T).1.flatten =
      (data.insertionSort tsLe).takeWhile (fun d => decide (d.1 ≤ lastMid T)) ∧
    ((correlate_data data T).1.flatten).Sublist (data.insertionSort tsLe) ∧
    (∀ d ∈ (correlate_data data T).1.flatten, d.1 ≤ lastMid T) ∧
    (correlate_data
        [((1 : ℚ), 0), (6, 1), (9, 2), (14, 3), (29, 4), (35, 5)]
        [(0 : ℚ), 10, 20, 30]).1 =
      [[((1 : ℚ), 0)], [(6, 1), (9, 2), (14, 3)], [], []] := by
  have hacc_inv : ∀ (j : ℕ) (hj : j < (T.map fun _ => ([] : List (ℚ × α))).length),
      0 < j → (T.map fun _ => ([] : List (ℚ × α))).get ⟨j, hj⟩ = [] :=
    fun j hj _ => List.getElem_map _
  have hacc_flat : (T.map fun _ => ([] : List (ℚ × α))).flatten = [] := by
    rw [List.flatten_eq_nil_iff]
    intro l hl
    obtain ⟨x, _, heq⟩ := List.mem_map.1 hl
    rw [← heq]
  have hflat : (correlate_data data T).1.flatten =
      (data.insertionSort tsLe).takeWhile (fun d => decide (d.1 ≤ lastMid T)) := by
    rw [correlate_data]
    dsimp only
    rw [cLoop_flatten_aux (data.insertionSort tsLe) T hT
      ((data.insertionSort tsLe).length + T.length) 0 0 _ (by omega)
      (by rw [List.length_map]) hacc_inv (by omega)]
    rw [hacc_flat, List.drop_zero, List.nil_append]
  refine ⟨?_, hflat, ?_, ?_, ?_⟩
  · rw [correlate_data]
    dsimp only
    rw [cLoop_length, List.length_map]
  · rw [hflat]
    exact List.takeWhile_sublist _
  · intro d hd
    rw [hflat] at hd
    simpa using List.mem_takeWhile_imp hd
  · have hsort : ([((1 : ℚ), 0), (6, 1), (9, 2), (14, 3), (29, 4),
        (35, 5)]).insertionSort tsLe =
        [((1 : ℚ), 0), (6, 1), (9, 2), (14, 3), (29, 4), (35, 5)] := by decide
    rw [correlate_data]
    dsimp only
    rw [hsort]
    norm_num
    rw [cLoop]
    norm_num
    rw [cLoop]
    norm_num
    rw [cLoop]
    norm_num
    rw [cLoop]
    norm_num
    rw [cLoop]
    norm_num
    rw [cLoop]
    norm_num
    rw [cLoop]
    norm_num
    rw [cLoop]
    norm_num

/-- C5, witness: two events against the four-frame timeline. -/
theorem claim_C5_witness :
    ([(0 : ℚ), 10, 20, 30] : List ℚ).Sorted (· ≤ ·) ∧
    2 ≤ ([(0 : ℚ), 10, 20, 30] : List ℚ).length ∧
    (correlate_data [((1 : ℚ), 0), (6, 1)] [(0 : ℚ), 10, 20, 30]).1.length =
      ([(0 : ℚ), 10, 20, 30] : List ℚ).length :=
  ⟨by decide, by decide,
   (claim_C5 [((1 : ℚ), 0), (6, 1)] [(0 : ℚ), 10, 20, 30]
     (by decide) (by decide)).1⟩
